import Mathlib

/-!
Shallow embedding of the interactive contour state machine of
`napari_nd_annotator/_widgets/minimal_contour_widget.py`
(`MinimalContourWidget`), together with its mask-commit / undo ledger and
the Fourier contour smoothing helper.

Conventions of the embedding:
* Points (`anchor_points.data`, `output.data`, the preview layers and the
  point triangle) are float64 pairs in the source; they are modelled as
  pairs of rationals `Pt := ℚ × ℚ`.
* `np.round` is modelled by `npround`, rounding half to even exactly as
  numpy does.
* Python `int(x)` (truncation toward zero) is `pyInt`.
* The Qt widget state relevant to the modelled handlers is gathered into
  one structure `WState`; UI-only plumbing (layouts, colors, event
  filters, progress dialogs, the mutex fast path, nD coordinate
  transforms) is outside the model.  Cursor positions are taken already
  in data coordinates (the source applies `world_to_data` first).
* The two undo dictionaries `change_idx` / `prev_vals` are written and
  deleted in lockstep in the source; they are modelled as one map
  `change_record` from a label-layer identity (`Nat`) to the pair of the
  recorded index list and previous values.
* Warnings (`warnings.warn`) are modelled as an `Option Warn` result
  component; fallible operations that could raise (`IndexError` in
  `on_right_click`) return `Option`.
-/

namespace NDAnnotator

/-- A 2-D point (row, column) in image pixel space. -/
abbrev Pt := ℚ × ℚ

/-- The point triangle `self.point_triangle`: row 0 is the start point
(last committed anchor), row 1 the current cursor position, row 2 the end
point (first anchor). -/
structure Triangle where
  s : Pt
  c : Pt
  e : Pt
deriving DecidableEq, Repr

/-- Warnings surfaced through `warnings.warn` in the modelled handlers. -/
inductive Warn where
  | cannotDelete
  | nothingToRevert
  | featureNotCalculated
  | imageNotSet
deriving DecidableEq, Repr

/-- The widget state viewed by the modelled handlers of
`MinimalContourWidget`. -/
structure WState where
  anchors : List Pt
  output : List Pt
  from_e : List Pt
  to_s : List Pt
  triangle : Triangle
  remove_last_anchor : Bool
  last_added_with_shift : Option Bool
  last_segment_length : Option Nat
  prev_n_anchor_points : Nat
  shift_down : Bool
  ctrl_down : Bool
  add_mode : Bool
  has_image : Bool
  imgH : Nat
  imgW : Nat
  feature_visible : Bool
  has_features : Bool
  labels_active : Nat
  labels_data : Nat → Nat × Nat → Int
  change_record : Nat → Option (List (Nat × Nat) × List Int)
  selected_label : Nat → Int
  autoincrease : Bool

/-- `np.clip(x, lo, hi)` on one scalar (with `lo ≤ hi`). -/
def clipQ (lo hi x : ℚ) : ℚ := max lo (min x hi)

/-- `np.clip(p, 0, self.image_data.shape[:2])`: coordinate-wise clamp of a
point into the closed box `[0, H] × [0, W]`. -/
def clipPt (H W : ℕ) (p : Pt) : Pt := (clipQ 0 (H : ℚ) p.1, clipQ 0 (W : ℚ) p.2)

/-- `np.round` on one scalar: round half to even. -/
def npround (q : ℚ) : ℤ :=
  if Int.fract q < 1/2 then ⌊q⌋
  else if 1/2 < Int.fract q then ⌊q⌋ + 1
  else if Even ⌊q⌋ then ⌊q⌋ else ⌊q⌋ + 1

/-- `np.round` applied to both coordinates of a point. -/
def roundPt (p : Pt) : ℤ × ℤ := (npround p.1, npround p.2)

/-- `np.roll(data, 1, 0)`: move the last row to the front. -/
def rollOne (l : List Pt) : List Pt :=
  match l.getLast? with
  | none => []
  | some x => x :: l.dropLast

/-- Python `l[:-n]`: for `n = 0` this is the empty list, otherwise it
drops the last `n` elements. -/
def pySliceNeg (l : List Pt) (n : ℕ) : List Pt :=
  if n = 0 then [] else l.take (l.length - n)

/-- The all-sentinel point triangle `np.zeros((3, 2)) - 1`. -/
def sentinelTri : Triangle := ⟨(-1, -1), (-1, -1), (-1, -1)⟩

/-- `MinimalContourWidget.clear_all`: empty the output contour, the anchor
sequence and both preview layers, reset the point triangle to the
sentinel and zero the remembered anchor count. -/
def clearAll (st : WState) : WState :=
  { st with
    output := []
    anchors := []
    prev_n_anchor_points := 0
    from_e := []
    to_s := []
    triangle := sentinelTri }

/-- `MinimalContourWidget.data_event`: the anchor-point layer's data event
handler (the `event.source` check and the napari `refresh` calls are UI
plumbing and are not modelled).  Returns the new state and the warning
surfaced, if any. -/
def dataEvent (st : WState) : WState × Option Warn :=
  if st.remove_last_anchor then
    ({ st with anchors := st.anchors.dropLast, remove_last_anchor := false }, none)
  else if st.anchors.length < st.prev_n_anchor_points then
    (clearAll st, some Warn.cannotDelete)
  else
    let st1 := { st with prev_n_anchor_points := st.anchors.length }
    if st1.anchors.length = 0 then (st1, none)
    else
      let lastC := clipPt st1.imgH st1.imgW (st1.anchors.getLastD (0, 0))
      let data := st1.anchors.dropLast ++ [lastC]
      if 1 < data.length ∧ roundPt lastC = roundPt (data.dropLast.getLastD (0, 0)) then
        ({ st1 with anchors := st1.anchors.dropLast }, none)
      else
        let st2 :=
          if st1.shift_down then
            let base := { st1 with anchors := rollOne data, last_added_with_shift := some true }
            if base.to_s ≠ [] then
              { base with output := base.to_s ++ base.output,
                          last_segment_length := some base.to_s.length }
            else base
          else
            if st1.from_e ≠ [] then
              { st1 with anchors := data,
                         output := st1.output ++ st1.from_e,
                         last_added_with_shift := some false,
                         last_segment_length := some st1.from_e.length }
            else { st1 with anchors := data }
        ({ st2 with triangle := { st2.triangle with
              e := st2.anchors.headD (0, 0),
              s := st2.anchors.getLastD (0, 0) } }, none)

/-- A primary click in add mode: napari appends the clicked point to the
anchor layer's data, then the data event fires. -/
def anchorAdd (st : WState) (p : Pt) : WState × Option Warn :=
  dataEvent { st with anchors := st.anchors ++ [p] }

/-- `MinimalContourWidget.on_right_click`: the mouse drag callback that
removes the last anchor commit.  Returns `none` when the source would
raise `IndexError` (indexing `data[0]` of an emptied anchor array). -/
def onRightClick (st : WState) (button : ℕ) : Option WState :=
  if button = 2 ∧ st.add_mode then
    let st1 := { st with remove_last_anchor := true }
    match st1.last_segment_length with
    | none => some st1
    | some L =>
      let pair : List Pt × List Pt :=
        if st1.last_added_with_shift = some true then
          (st1.anchors.drop 1, st1.output.drop L)
        else
          (st1.anchors.dropLast, pySliceNeg st1.output L)
      if pair.1 = [] then none
      else
        some { st1 with
          anchors := pair.1
          output := pair.2
          triangle := { st1.triangle with
            e := pair.1.headD (0, 0),
            s := pair.1.getLastD (0, 0) }
          last_segment_length := none }
  else some st

/-- Python `int(x)`: truncation toward zero. -/
def pyInt (q : ℚ) : ℤ := if 0 ≤ q then ⌊q⌋ else -⌊-q⌋

/-- An integer pixel as a float point (the preview layers store floats). -/
def intPt (z : ℤ × ℤ) : Pt := ((z.1 : ℚ), (z.2 : ℚ))

/-- One step of the Bresenham loop of `skimage.draw._draw._line`.  The
source's inner `while d >= 0` loop executes at most once per iteration:
at every loop head `d < 2*dr ≤ 2*dc`, so a single subtraction of `2*dc`
makes `d` negative; it is therefore written as an `if`. -/
def skLineLoop : ℕ → Bool → ℤ → ℤ → ℤ → ℤ → ℤ → ℤ → ℤ → List (ℤ × ℤ)
  | 0, _, _, _, _, _, _, _, _ => []
  | Nat.succ i, steep, r, c, d, sr, sc, dr, dc =>
    let pt : ℤ × ℤ := if steep then (c, r) else (r, c)
    let rd : ℤ × ℤ := if 0 ≤ d then (r + sr, d - 2 * dc) else (r, d)
    pt :: skLineLoop i steep rd.1 (c + sc) (rd.2 + 2 * dr) sr sc dr dc

/-- `skimage.draw.line(r0, c0, r1, c1)` (Bresenham), returning the pixel
list from `(r0, c0)` to `(r1, c1)` inclusive, as the `(rr, cc)` pairs of
the source stacked into points. -/
def skLine (r0 c0 r1 c1 : ℤ) : List (ℤ × ℤ) :=
  let dr0 := (r1 - r0).natAbs
  let dc0 := (c1 - c0).natAbs
  let sc0 : ℤ := if 0 < c1 - c0 then 1 else -1
  let sr0 : ℤ := if 0 < r1 - r0 then 1 else -1
  if (dc0 : ℤ) < (dr0 : ℤ) then
    skLineLoop dr0 true c0 r0 (2 * (dc0 : ℤ) - (dr0 : ℤ)) sc0 sr0 (dc0 : ℤ) (dr0 : ℤ)
      ++ [(r1, c1)]
  else
    skLineLoop dc0 false r0 c0 (2 * (dr0 : ℤ) - (dc0 : ℤ)) sr0 sc0 (dr0 : ℤ) (dc0 : ℤ)
      ++ [(r1, c1)]

/-- The point triangle with its middle row (the live cursor position)
replaced, as assigned by `self.point_triangle[1] = ...`. -/
def updTri (t : Triangle) (p : Pt) : Triangle := { t with c := p }

/-- One point is out of the half-open image bounds: some coordinate is
negative or at least the image height/width.  Together over the triangle
this is `np.any(self.point_triangle < 0) or
np.any(self.point_triangle >= self.image_data.shape[:2])`. -/
def ptOOB (H W : ℕ) (p : Pt) : Bool :=
  decide (p.1 < 0) || decide (p.2 < 0) || decide ((H : ℚ) ≤ p.1) || decide ((W : ℚ) ≤ p.2)

/-- The out-of-bounds test of `on_mouse_move` over all three rows of the
point triangle. -/
def triOOB (H W : ℕ) (t : Triangle) : Bool :=
  ptOOB H W t.s || ptOOB H W t.c || ptOOB H W t.e

/-- Assign both preview layers from a solver result pair:
`self.from_e_points_layer.data = np.flipud(results[0])` and
`self.to_s_points_layer.data = np.flipud(results[1])`. -/
def setSegs (st : WState) (res : List Pt × List Pt) : WState :=
  { st with from_e := res.1.reverse, to_s := res.2.reverse }

/-- `MinimalContourWidget.on_mouse_move` (the uncontended path through the
`move_mutex` try-lock).  The minimal-path solver
(`MinimalContourCalculator.run` via `estimate`, together with its
bounding-box setup) is an external collaborator and is passed as the
function `solver` from the point triangle to the two result polylines.
Returns the new state and whether the solver was called. -/
def onMouseMove (st : WState) (cursor : Pt)
    (solver : Triangle → List Pt × List Pt) : WState × Bool :=
  if ¬ st.has_image then (st, false)
  else if ¬ st.add_mode then (st, false)
  else
    let st1 := { st with triangle := updTri st.triangle cursor }
    if triOOB st1.imgH st1.imgW st1.triangle then (st1, false)
    else if ¬ st1.ctrl_down then
      if st1.feature_visible then
        if ¬ st1.has_features then (st1, false)
        else (setSegs st1 (solver st1.triangle), true)
      else (setSegs st1 (solver st1.triangle), true)
    else
      let t := st1.triangle
      let seg0 := skLine (pyInt t.c.1) (pyInt t.c.2) (pyInt t.s.1) (pyInt t.s.2)
      let seg1 := skLine (pyInt t.e.1) (pyInt t.e.2) (pyInt t.c.1) (pyInt t.c.2)
      (setSegs st1 (seg0.map intPt, seg1.map intPt), false)

/-- `np.nonzero(mask)` over the 2-D slice shape: the row-major list of
index pairs where the mask is true. -/
def maskIdx (H W : ℕ) (m : ℕ × ℕ → Bool) : List (ℕ × ℕ) :=
  (List.range H).flatMap fun i =>
    (List.range W).filterMap fun j => if m (i, j) then some (i, j) else none

/-- Sequential fancy assignment `data[idx] = vals` of numpy: write each
value at its index in order (a later duplicate index wins). -/
def listWrite (g : ℕ × ℕ → ℤ) : List (ℕ × ℕ) → List ℤ → (ℕ × ℕ → ℤ)
  | p :: ps, v :: vs => listWrite (fun q => if q = p then v else g q) ps vs
  | _, _ => g

/-- `MinimalContourWidget.set_mask`: record the masked indices and their
previous values for the active labels layer (replacing any prior record),
write the selected label at every masked position, clear the session and,
when auto-increment is on, bump the selected label.  The nD embedding of
the 2-D slice indices (`change_idx` built from `viewer.dims`) is modelled
by working directly on the current 2-D slice. -/
def setMask (st : WState) (m : ℕ × ℕ → Bool) : WState :=
  let idx := maskIdx st.imgH st.imgW m
  let prev := idx.map (st.labels_data st.labels_active)
  let lbl := st.selected_label st.labels_active
  let st1 := { st with
    change_record := fun k =>
      if k = st.labels_active then some (idx, prev) else st.change_record k
    labels_data := fun k =>
      if k = st.labels_active then
        (fun q => if q ∈ idx then lbl else st.labels_data st.labels_active q)
      else st.labels_data k }
  let st2 := clearAll st1
  if st2.autoincrease then
    { st2 with selected_label := fun k =>
        if k = st.labels_active then lbl + 1 else st2.selected_label k }
  else st2

/-- `MinimalContourWidget.ctrl_z_callback`: if a change record exists for
the active labels layer, restore the recorded previous values at the
recorded indices and discard the record; otherwise warn that there is
nothing to revert. -/
def ctrlZ (st : WState) : WState × Option Warn :=
  match st.change_record st.labels_active with
  | some (idx, vals) =>
    ({ st with
        labels_data := fun k =>
          if k = st.labels_active then
            listWrite (st.labels_data st.labels_active) idx vals
          else st.labels_data k
        change_record := fun k =>
          if k = st.labels_active then none else st.change_record k }, none)
  | none => (st, some Warn.nothingToRevert)

/-! `MinimalContourWidget.smooth_fourier` works on float64 contours with
`scipy.fft.rfft` / `scipy.fft.irfft`; it is modelled exactly over the
real numbers (hence this section is noncomputable: the discrete Fourier
kernel `exp(±2πi·km/n)` is transcendental). -/

/-- `points.mean(0)`: the centroid of a contour. -/
noncomputable def centroid (pts : List (ℝ × ℝ)) : ℝ × ℝ :=
  ((pts.map Prod.fst).sum / pts.length, (pts.map Prod.snd).sum / pts.length)

/-- `scipy.fft.rfft(x)` of a real column: entry `k` (for
`k = 0, …, n/2`) is `Σ_m x_m · exp(-2πi·km/n)`. -/
noncomputable def rfftR (x : List ℝ) : List ℂ :=
  (List.range (x.length / 2 + 1)).map fun (k : ℕ) =>
    ∑ m in Finset.range x.length,
      ((x.getD m 0 : ℝ) : ℂ)
        * Complex.exp (-(2 * Real.pi * Complex.I * (k : ℂ) * (m : ℂ)) / (x.length : ℂ))

/-- `tformed[0] = 0`: zero the DC component. -/
def zeroDC (v : List ℂ) : List ℂ :=
  match v with
  | [] => []
  | _ :: t => 0 :: t

/-- The spectrum entry `j` available to `scipy.fft.irfft(v, n)`: the
input is cropped or zero-padded to `n/2 + 1` entries. -/
def irfftPad (v : List ℂ) (n : ℕ) (j : ℕ) : ℂ :=
  if h : j < v.length ∧ j < n / 2 + 1 then v.get ⟨j, h.1⟩ else 0

/-- The length-`n` hermitian extension of the (cropped/padded) input
spectrum, as assumed by the inverse real FFT. -/
noncomputable def irfftSpec (v : List ℂ) (n : ℕ) (k : ℕ) : ℂ :=
  if k ≤ n / 2 then irfftPad v n k else (starRingEnd ℂ) (irfftPad v n (n - k))

/-- `scipy.fft.irfft(v, n)` of one column: the inverse transform of the
hermitianly extended spectrum; the output has exactly `n` real entries. -/
noncomputable def irfftR (v : List ℂ) (n : ℕ) : List ℝ :=
  (List.range n).map fun (m : ℕ) =>
    (((n : ℂ))⁻¹ * ∑ k in Finset.range n,
      irfftSpec v n k
        * Complex.exp (2 * Real.pi * Complex.I * (k : ℂ) * (m : ℂ) / (n : ℂ))).re

/-- `MinimalContourWidget.smooth_fourier`: subtract the centroid, take the
real FFT of each coordinate column, zero the DC entry, keep the first
`coefficients` entries, inverse-transform at the original point count and
add the centroid back. -/
noncomputable def smoothFourier (coefficients : ℕ) (points : List (ℝ × ℝ)) : List (ℝ × ℝ) :=
  let center := centroid points
  let centered := points.map fun p => (p.1 - center.1, p.2 - center.2)
  let tf1 := zeroDC (rfftR (centered.map Prod.fst))
  let tf2 := zeroDC (rfftR (centered.map Prod.snd))
  let o1 := irfftR (tf1.take coefficients) points.length
  let o2 := irfftR (tf2.take coefficients) points.length
  List.zipWith (fun a b => (a + center.1, b + center.2)) o1 o2

/-- A baseline concrete widget state used by the concrete instantiations
below: empty session over a 10×10 image, labels layer 0 active. -/
def baseState : WState :=
  { anchors := []
    output := []
    from_e := []
    to_s := []
    triangle := sentinelTri
    remove_last_anchor := false
    last_added_with_shift := none
    last_segment_length := none
    prev_n_anchor_points := 0
    shift_down := false
    ctrl_down := false
    add_mode := true
    has_image := true
    imgH := 10
    imgW := 10
    feature_visible := false
    has_features := false
    labels_active := 0
    labels_data := fun _ _ => 0
    change_record := fun _ => none
    selected_label := fun _ => 5
    autoincrease := true }

/-- Concrete state for the Ctrl-move direction claim: last committed
anchor `(0, 0)` (triangle start), first anchor `(5, 5)` (triangle end),
Ctrl held. -/
def ctrlMoveState : WState :=
  { baseState with
    ctrl_down := true
    anchors := [(5, 5), (0, 0)]
    prev_n_anchor_points := 2
    triangle := ⟨(0, 0), (-1, -1), (5, 5)⟩ }

/-- A trivial solver stand-in used when instantiating the move handler at
inputs where the solver is not called. -/
def noSolver : Triangle → List Pt × List Pt := fun _ => ([], [])

/-- Concrete state for the right-click claim: two anchors, a three-point
output contour whose last two points came from the most recent (non-shift)
commit. -/
def rightClickState : WState :=
  { baseState with
    anchors := [(5, 5), (0, 0)]
    output := [(0, 0), (1, 1), (2, 2)]
    last_segment_length := some 2
    last_added_with_shift := some false
    prev_n_anchor_points := 2 }

/-! ### Helper lemmas -/

/-- Writing back, in order, the values `f` takes on `idx` yields `f` on
`idx` and leaves everything else untouched (duplicated indices rewrite
the same value, so no distinctness is needed). -/
theorem listWrite_map (idx : List (ℕ × ℕ)) (g f : ℕ × ℕ → ℤ) (q : ℕ × ℕ) :
    listWrite g idx (idx.map f) q = if q ∈ idx then f q else g q := by
  induction idx generalizing g with
  | nil => simp [listWrite]
  | cons a as ih =>
    simp only [List.map_cons, listWrite]
    rw [ih]
    by_cases hq : q ∈ as
    · simp [hq]
    · by_cases hqa : q = a
      · subst hqa; simp [hq]
      · simp [hq, hqa]

/-- Half-to-even rounding differs from its argument by at most one half. -/
theorem npround_bounds (q : ℚ) :
    q - 1/2 ≤ (npround q : ℚ) ∧ (npround q : ℚ) ≤ q + 1/2 := by
  have hfl : (⌊q⌋ : ℚ) + Int.fract q = q := Int.floor_add_fract q
  have h0 : 0 ≤ Int.fract q := Int.fract_nonneg q
  have h1 : Int.fract q < 1 := Int.fract_lt_one q
  unfold npround
  split_ifs with ha hb hc
  · constructor <;> linarith
  · push_cast
    constructor <;> linarith
  · have htie : Int.fract q = 1/2 := le_antisymm (not_lt.1 hb) (not_lt.1 ha)
    constructor <;> linarith
  · have htie : Int.fract q = 1/2 := le_antisymm (not_lt.1 hb) (not_lt.1 ha)
    push_cast
    constructor <;> linarith

/-- Half-to-even rounding is monotone. -/
theorem npround_mono {p q : ℚ} (h : p ≤ q) : npround p ≤ npround q := by
  by_contra hcon
  push_neg at hcon
  have hint : npround q + 1 ≤ npround p := Int.lt_iff_add_one_le.mp hcon
  have hcast : (npround q : ℚ) + 1 ≤ (npround p : ℚ) := by exact_mod_cast hint
  have h1 := (npround_bounds p).2
  have h2 := (npround_bounds q).1
  have hpq : p = q := le_antisymm h (by linarith)
  rw [hpq] at hcon
  exact lt_irrefl _ hcon

/-- Clamping into `[0, B]` does not change the rounded value of a point
that rounds equal to an in-bounds reference value. -/
theorem npround_clipQ {B : ℕ} {a t : ℚ} (ha0 : 0 ≤ a) (haB : a ≤ (B : ℚ))
    (h : npround t = npround a) : npround (clipQ 0 (B : ℚ) t) = npround a := by
  unfold clipQ
  by_cases h1 : t < 0
  · have hmin : min t (B : ℚ) = t := min_eq_left (h1.le.trans (by positivity))
    rw [hmin, max_eq_left h1.le]
    have k1 : npround t ≤ npround 0 := npround_mono h1.le
    have k2 : npround 0 ≤ npround a := npround_mono ha0
    omega
  · by_cases h2 : (B : ℚ) < t
    · rw [min_eq_right h2.le, max_eq_right (by positivity)]
      have k1 : npround a ≤ npround (B : ℚ) := npround_mono haB
      have k2 : npround (B : ℚ) ≤ npround t := npround_mono h2.le
      omega
    · rw [min_eq_left (not_lt.1 h2), max_eq_right (not_lt.1 h1)]
      exact h

theorem clipQ_nonneg (B x : ℚ) : 0 ≤ clipQ 0 B x := le_max_left 0 _

theorem clipQ_le {B : ℚ} (x : ℚ) (hB : 0 ≤ B) : clipQ 0 B x ≤ B :=
  max_le hB (min_le_right x B)

theorem clipQ_eq_self {B x : ℚ} (h0 : 0 ≤ x) (hB : x ≤ B) : clipQ 0 B x = x := by
  unfold clipQ
  rw [min_eq_left hB, max_eq_right h0]

theorem clipPt_idem (H W : ℕ) (p : Pt) :
    clipPt H W (clipPt H W p) = clipPt H W p := by
  unfold clipPt
  refine Prod.ext ?_ ?_ <;> dsimp only
  · exact clipQ_eq_self (clipQ_nonneg _ _) (clipQ_le _ (by positivity))
  · exact clipQ_eq_self (clipQ_nonneg _ _) (clipQ_le _ (by positivity))

theorem rollOne_concat (l : List Pt) (x : Pt) : rollOne (l ++ [x]) = x :: l := by
  unfold rollOne
  simp

/-- The commit path of the data event: with no pending right-click
removal, a consistent recorded count and no duplicate collapse, the new
(clamped) anchor is stored at the front (shift) or the back (no shift),
the point triangle's end and start rows are the first and last stored
anchors, and no warning is raised. -/
theorem anchorAdd_commit_fields (st : WState) (p : Pt)
    (hrm : st.remove_last_anchor = false)
    (hprev : st.prev_n_anchor_points ≤ st.anchors.length + 1)
    (hdup : ¬(st.anchors ≠ [] ∧ roundPt (clipPt st.imgH st.imgW p)
                = roundPt (st.anchors.getLastD (0, 0)))) :
    (anchorAdd st p).1.anchors
      = (if st.shift_down then clipPt st.imgH st.imgW p :: st.anchors
         else st.anchors ++ [clipPt st.imgH st.imgW p])
    ∧ (anchorAdd st p).1.triangle.e = (anchorAdd st p).1.anchors.headD (0, 0)
    ∧ (anchorAdd st p).1.triangle.s = (anchorAdd st p).1.anchors.getLastD (0, 0)
    ∧ (anchorAdd st p).1.anchors ≠ []
    ∧ (anchorAdd st p).2 = none := by
  have hlast : (st.anchors ++ [p]).getLastD (0, 0) = p := by simp
  have hdrop : (st.anchors ++ [p]).dropLast = st.anchors := by simp
  have hlen : ¬ (st.anchors ++ [p]).length < st.prev_n_anchor_points := by
    simp only [List.length_append, List.length_cons, List.length_nil]
    omega
  have hlen0 : ¬ (st.anchors ++ [p]).length = 0 := by simp
  have hguard : ¬(1 < ((st.anchors ++ [p]).dropLast
        ++ [clipPt st.imgH st.imgW ((st.anchors ++ [p]).getLastD (0, 0))]).length
      ∧ roundPt (clipPt st.imgH st.imgW ((st.anchors ++ [p]).getLastD (0, 0)))
        = roundPt (((st.anchors ++ [p]).dropLast
            ++ [clipPt st.imgH st.imgW ((st.anchors ++ [p]).getLastD (0, 0))]
            ).dropLast.getLastD (0, 0))) := by
    rw [hlast, hdrop, List.dropLast_concat]
    intro hcontr
    apply hdup
    refine ⟨?_, hcontr.2⟩
    intro hnil
    rw [hnil] at hcontr
    simp at hcontr
  unfold anchorAdd dataEvent
  simp only [hrm, Bool.false_eq_true, if_false, hlen, hlen0]
  rw [if_neg hguard]
  by_cases hsh : st.shift_down
  · simp only [hsh, if_true, hlast, hdrop]
    by_cases hts : st.to_s = []
    · simp [hts, rollOne_concat]
    · simp [hts, rollOne_concat]
  · simp only [hsh, Bool.false_eq_true, if_false, hlast, hdrop]
    by_cases hfe : st.from_e = []
    · simp [hfe]
    · simp [hfe]

/-- The data event treats an inserted anchor exactly as its clamped
version: clamping happens before the duplicate check and before any
splice or triangle update. -/
theorem anchorAdd_clip (st : WState) (p : Pt) :
    anchorAdd st p = anchorAdd st (clipPt st.imgH st.imgW p) := by
  unfold anchorAdd dataEvent
  simp only [List.getLastD_concat, List.dropLast_concat, clipPt_idem,
    List.length_append, List.length_cons, List.length_nil]
  split_ifs <;> first | rfl | contradiction

theorem setMask_labels_active (st : WState) (m : ℕ × ℕ → Bool) :
    (setMask st m).labels_active = st.labels_active := by
  unfold setMask clearAll
  dsimp only
  split <;> rfl

theorem setMask_change_record (st : WState) (m : ℕ × ℕ → Bool) :
    (setMask st m).change_record st.labels_active
      = some (maskIdx st.imgH st.imgW m,
              (maskIdx st.imgH st.imgW m).map (st.labels_data st.labels_active)) := by
  unfold setMask clearAll
  dsimp only
  split <;> simp

theorem setMask_labels_data (st : WState) (m : ℕ × ℕ → Bool) :
    (setMask st m).labels_data st.labels_active
      = fun q => if q ∈ maskIdx st.imgH st.imgW m
                 then st.selected_label st.labels_active
                 else st.labels_data st.labels_active q := by
  unfold setMask clearAll
  dsimp only
  split <;> simp

/-! ### Claim C1 -/

/-- C1: for every widget state (hence every label layer and mask), a mask
commit followed by undo restores the pre-commit values at every
previously masked index of the active label layer; the undo itself warns
nothing and discards the change record (one-shot), so a second undo with
no intervening commit leaves the state unchanged and reports, non-fatally,
that there is nothing to revert. -/
theorem ctrlZ_of_record (st' : WState) (idx : List (ℕ × ℕ)) (vals : List ℤ)
    (h : st'.change_record st'.labels_active = some (idx, vals)) :
    (ctrlZ st').2 = none
    ∧ (ctrlZ st').1.labels_data st'.labels_active
        = listWrite (st'.labels_data st'.labels_active) idx vals
    ∧ (ctrlZ st').1.change_record st'.labels_active = none
    ∧ (ctrlZ st').1.labels_active = st'.labels_active := by
  unfold ctrlZ
  rw [h]
  simp

theorem ctrlZ_of_none (st' : WState)
    (h : st'.change_record st'.labels_active = none) :
    ctrlZ st' = (st', some Warn.nothingToRevert) := by
  unfold ctrlZ
  rw [h]

theorem mask_commit_undo_restores (st : WState) (m : ℕ × ℕ → Bool) :
    (∀ p ∈ maskIdx st.imgH st.imgW m,
        (ctrlZ (setMask st m)).1.labels_data st.labels_active p
          = st.labels_data st.labels_active p)
    ∧ (ctrlZ (setMask st m)).2 = none
    ∧ (ctrlZ (setMask st m)).1.change_record st.labels_active = none
    ∧ ctrlZ (ctrlZ (setMask st m)).1
        = ((ctrlZ (setMask st m)).1, some Warn.nothingToRevert) := by
  have hact := setMask_labels_active st m
  have hdata := setMask_labels_data st m
  have hrec := setMask_change_record st m
  rw [← hact] at hrec
  obtain ⟨h2, hld, hrecnone, hact2⟩ := ctrlZ_of_record (setMask st m) _ _ hrec
  rw [hact] at hld hrecnone hact2
  refine ⟨?_, h2, hrecnone, ?_⟩
  · intro p hp
    rw [hld, hdata, listWrite_map]
    simp [hp]
  · apply ctrlZ_of_none
    rw [hact2]
    exact hrecnone

/-! ### Claim C7 -/

/-- C7: when the data event observes fewer anchor points than the
previously recorded count, the whole session is reset (anchor sequence,
output contour and both preview segments emptied, point triangle back to
the sentinel) and a warning — not an error, the handler returns normally
— is surfaced. -/
theorem data_event_shrink_resets (st : WState)
    (hrm : st.remove_last_anchor = false)
    (hlt : st.anchors.length < st.prev_n_anchor_points) :
    dataEvent st = (clearAll st, some Warn.cannotDelete)
    ∧ (clearAll st).anchors = []
    ∧ (clearAll st).output = []
    ∧ (clearAll st).from_e = []
    ∧ (clearAll st).to_s = []
    ∧ (clearAll st).triangle = sentinelTri
    ∧ (clearAll st).prev_n_anchor_points = 0 := by
  unfold dataEvent
  simp [hrm, hlt, clearAll]

/-- Witness for C7 at a concrete state: one anchor on record but an
empty observed sequence. -/
theorem data_event_shrink_resets_witness :
    ({ baseState with prev_n_anchor_points := 1 } : WState).remove_last_anchor = false
    ∧ ({ baseState with prev_n_anchor_points := 1 } : WState).anchors.length
        < ({ baseState with prev_n_anchor_points := 1 } : WState).prev_n_anchor_points
    ∧ dataEvent { baseState with prev_n_anchor_points := 1 }
        = (clearAll { baseState with prev_n_anchor_points := 1 }, some Warn.cannotDelete) :=
  ⟨rfl, by decide,
    (data_event_shrink_resets { baseState with prev_n_anchor_points := 1 } rfl (by decide)).1⟩

/-! ### Claim C5 -/

/-- C5: on a cursor move, whenever any entry of the point triangle (with
its cursor row updated to the move position) is out of the half-open
image bounds — which includes the all-sentinel triangle of a zero-anchor
session — the move handler calls no solver and leaves both preview
segments unchanged. -/
theorem mouse_move_oob_noop (st : WState) (cursor : Pt)
    (solver : Triangle → List Pt × List Pt)
    (h : triOOB st.imgH st.imgW (updTri st.triangle cursor) = true) :
    (onMouseMove st cursor solver).1.from_e = st.from_e
    ∧ (onMouseMove st cursor solver).1.to_s = st.to_s
    ∧ (onMouseMove st cursor solver).2 = false := by
  unfold onMouseMove
  by_cases h1 : st.has_image
  · by_cases h2 : st.add_mode
    · simp [h1, h2, h]
    · simp [h1, h2]
  · simp [h1]

/-- Witness for C5 at a concrete state: the zero-anchor session with its
all-sentinel triangle ignores a move to the in-bounds point `(3, 3)`. -/
theorem mouse_move_oob_noop_witness :
    triOOB baseState.imgH baseState.imgW (updTri baseState.triangle (3, 3)) = true
    ∧ (onMouseMove baseState (3, 3) noSolver).1.from_e = baseState.from_e
    ∧ (onMouseMove baseState (3, 3) noSolver).1.to_s = baseState.to_s
    ∧ (onMouseMove baseState (3, 3) noSolver).2 = false :=
  ⟨by decide, mouse_move_oob_noop baseState (3, 3) noSolver (by decide)⟩

/-! ### Claim C6 (corrected) -/

/-- C6 counterexample: with Ctrl held, start `(0, 0)`, end `(5, 5)` and
the cursor at the in-bounds point `(0, 2)`, the handler fills the
`from_e` preview with the rasterized straight line joining the start and
the current position, `[(0,0), (0,1), (0,2)]`; the claimed polyline from
current to end would contain the end point `(5, 5)`, which does not occur
in `from_e` at all. -/
theorem mouse_move_ctrl_direction_counterexample :
    (onMouseMove ctrlMoveState (0, 2) noSolver).1.from_e
      = [((0 : ℚ), (0 : ℚ)), (0, 1), (0, 2)]
    ∧ ((5 : ℚ), (5 : ℚ)) ∉ (onMouseMove ctrlMoveState (0, 2) noSolver).1.from_e
    ∧ (onMouseMove ctrlMoveState (0, 2) noSolver).1.to_s
      ≠ ((skLine 0 0 0 2).map intPt).reverse := by
  decide

/-- C6 as amended: for every in-bounds cursor move with Ctrl held, both
preview segments are fully replaced by straight rasterized
(Bresenham) lines, with `from_e` holding the polyline joining the start
to the current position (the reversed rasterization from current to
start) and `to_s` holding the polyline joining the current position to
the end (the reversed rasterization from end to current); no solver is
called. -/
theorem mouse_move_ctrl_lines (st : WState) (cursor : Pt)
    (solver : Triangle → List Pt × List Pt)
    (himg : st.has_image = true) (hmode : st.add_mode = true)
    (hctrl : st.ctrl_down = true)
    (hin : triOOB st.imgH st.imgW (updTri st.triangle cursor) = false) :
    (onMouseMove st cursor solver).1.from_e
      = ((skLine (pyInt cursor.1) (pyInt cursor.2)
            (pyInt st.triangle.s.1) (pyInt st.triangle.s.2)).map intPt).reverse
    ∧ (onMouseMove st cursor solver).1.to_s
      = ((skLine (pyInt st.triangle.e.1) (pyInt st.triangle.e.2)
            (pyInt cursor.1) (pyInt cursor.2)).map intPt).reverse
    ∧ (onMouseMove st cursor solver).2 = false := by
  unfold onMouseMove
  simp [himg, hmode, hctrl, hin, setSegs]
  simp [updTri]

/-- Witness for the amended C6 at the concrete Ctrl-move state. -/
theorem mouse_move_ctrl_lines_witness :
    triOOB ctrlMoveState.imgH ctrlMoveState.imgW
        (updTri ctrlMoveState.triangle (0, 2)) = false
    ∧ (onMouseMove ctrlMoveState (0, 2) noSolver).1.from_e
        = ((skLine (pyInt (0 : ℚ)) (pyInt (2 : ℚ))
              (pyInt ctrlMoveState.triangle.s.1)
              (pyInt ctrlMoveState.triangle.s.2)).map intPt).reverse
    ∧ (onMouseMove ctrlMoveState (0, 2) noSolver).2 = false :=
  ⟨by decide,
    (mouse_move_ctrl_lines ctrlMoveState (0, 2) noSolver rfl rfl rfl (by decide)).1,
    (mouse_move_ctrl_lines ctrlMoveState (0, 2) noSolver rfl rfl rfl (by decide)).2.2⟩

/-! ### Claim C3 -/

/-- C3: inserting a new anchor into a non-empty anchor sequence whose
coordinates round (after the handler's clamp) to those of the current
last anchor is silently discarded: the anchor sequence, the output
contour, the preview segments, the point triangle and the session splice
bookkeeping all keep their previous values, and no warning is raised.
The hypotheses `hb1`/`hb2` say the stored last anchor is inside the clamp
box `[0, H] × [0, W]`, which holds for every committed anchor (claim C9);
`hprev` says the recorded anchor count is consistent with the observed
sequence (it always is outside the disallowed-deletion case, claim C7). -/
theorem duplicate_anchor_discarded (st : WState) (p : Pt)
    (hrm : st.remove_last_anchor = false)
    (hprev : st.prev_n_anchor_points ≤ st.anchors.length + 1)
    (hne : st.anchors ≠ [])
    (hb1 : 0 ≤ (st.anchors.getLastD (0, 0)).1
           ∧ (st.anchors.getLastD (0, 0)).1 ≤ (st.imgH : ℚ))
    (hb2 : 0 ≤ (st.anchors.getLastD (0, 0)).2
           ∧ (st.anchors.getLastD (0, 0)).2 ≤ (st.imgW : ℚ))
    (hr : roundPt p = roundPt (st.anchors.getLastD (0, 0))) :
    (anchorAdd st p).1.anchors = st.anchors
    ∧ (anchorAdd st p).1.output = st.output
    ∧ (anchorAdd st p).1.from_e = st.from_e
    ∧ (anchorAdd st p).1.to_s = st.to_s
    ∧ (anchorAdd st p).1.triangle = st.triangle
    ∧ (anchorAdd st p).1.last_segment_length = st.last_segment_length
    ∧ (anchorAdd st p).1.last_added_with_shift = st.last_added_with_shift
    ∧ (anchorAdd st p).2 = none := by
  have hlast : (st.anchors ++ [p]).getLastD (0, 0) = p := by simp
  have hdrop : (st.anchors ++ [p]).dropLast = st.anchors := by simp
  have hlen : ¬ (st.anchors ++ [p]).length < st.prev_n_anchor_points := by
    simp only [List.length_append, List.length_cons, List.length_nil]
    omega
  have hlen0 : ¬ (st.anchors ++ [p]).length = 0 := by simp
  have hdup : 1 < ((st.anchors ++ [p]).dropLast
        ++ [clipPt st.imgH st.imgW ((st.anchors ++ [p]).getLastD (0, 0))]).length
      ∧ roundPt (clipPt st.imgH st.imgW ((st.anchors ++ [p]).getLastD (0, 0)))
        = roundPt (((st.anchors ++ [p]).dropLast
            ++ [clipPt st.imgH st.imgW ((st.anchors ++ [p]).getLastD (0, 0))]
            ).dropLast.getLastD (0, 0)) := by
    rw [hlast, hdrop, List.dropLast_concat]
    constructor
    · have : st.anchors.length ≠ 0 := fun h => hne (List.length_eq_zero.mp h)
      simp only [List.length_append, List.length_cons, List.length_nil]
      omega
    · have h1 := npround_clipQ hb1.1 hb1.2 (congrArg Prod.fst hr)
      have h2 := npround_clipQ hb2.1 hb2.2 (congrArg Prod.snd hr)
      unfold roundPt clipPt at *
      exact Prod.ext h1 h2
  unfold anchorAdd dataEvent
  simp only [hrm, Bool.false_eq_true, if_false, hlen, if_false, hlen0, if_false]
  rw [if_pos hdup]
  simp [hdrop]

/-- Witness for C3: with a single committed anchor at `(4, 7)`, inserting
`(4.4, 6.6)` — which rounds to `(4, 7)` — leaves the whole session
unchanged. -/
theorem duplicate_anchor_discarded_witness :
    roundPt ((22 : ℚ)/5, (33 : ℚ)/5)
        = roundPt (({ baseState with anchors := [(4, 7)], prev_n_anchor_points := 1 }
            : WState).anchors.getLastD (0, 0))
    ∧ (anchorAdd { baseState with anchors := [(4, 7)], prev_n_anchor_points := 1 }
        ((22 : ℚ)/5, (33 : ℚ)/5)).1.anchors
      = ({ baseState with anchors := [(4, 7)], prev_n_anchor_points := 1 } : WState).anchors :=
  ⟨by norm_num [roundPt, npround, Int.fract, baseState],
    (duplicate_anchor_discarded
      { baseState with anchors := [(4, 7)], prev_n_anchor_points := 1 }
      ((22 : ℚ)/5, (33 : ℚ)/5) rfl (by norm_num) (by norm_num)
      (by norm_num [baseState]) (by norm_num [baseState])
      (by norm_num [roundPt, npround, Int.fract])).1⟩

/-! ### Claim C9 -/

/-- C9: every inserted anchor behaves exactly as its coordinate-wise
clamp into the closed box `[0, H] × [0, W]` (so the clamp happens before
duplicate detection and before the triangle update); on the commit path
the stored anchor is the clamped point, whose coordinates are never
negative and never exceed the image extent; and the upper clamp bound is
the image shape itself (inclusive): a point one past the extent clamps to
the extent exactly. -/
theorem anchor_insert_clamped (st : WState) (p : Pt)
    (hrm : st.remove_last_anchor = false)
    (hprev : st.prev_n_anchor_points ≤ st.anchors.length + 1)
    (hdup : ¬(st.anchors ≠ [] ∧ roundPt (clipPt st.imgH st.imgW p)
                = roundPt (st.anchors.getLastD (0, 0)))) :
    anchorAdd st p = anchorAdd st (clipPt st.imgH st.imgW p)
    ∧ (anchorAdd st p).1.anchors
      = (if st.shift_down then clipPt st.imgH st.imgW p :: st.anchors
         else st.anchors ++ [clipPt st.imgH st.imgW p])
    ∧ (0 ≤ (clipPt st.imgH st.imgW p).1 ∧ (clipPt st.imgH st.imgW p).1 ≤ (st.imgH : ℚ))
    ∧ (0 ≤ (clipPt st.imgH st.imgW p).2 ∧ (clipPt st.imgH st.imgW p).2 ≤ (st.imgW : ℚ))
    ∧ clipPt st.imgH st.imgW ((st.imgH : ℚ) + 1, (st.imgW : ℚ) + 1)
      = ((st.imgH : ℚ), (st.imgW : ℚ)) := by
  refine ⟨anchorAdd_clip st p,
    (anchorAdd_commit_fields st p hrm hprev hdup).1,
    ⟨clipQ_nonneg _ _, clipQ_le _ (by positivity)⟩,
    ⟨clipQ_nonneg _ _, clipQ_le _ (by positivity)⟩, ?_⟩
  unfold clipPt clipQ
  refine Prod.ext ?_ ?_ <;> dsimp only
  · rw [min_eq_right (by linarith : (st.imgH : ℚ) ≤ (st.imgH : ℚ) + 1)]
    exact max_eq_right (by positivity)
  · rw [min_eq_right (by linarith : (st.imgW : ℚ) ≤ (st.imgW : ℚ) + 1)]
    exact max_eq_right (by positivity)

/-- Witness for C9: inserting `(12, -1)` over a 10×10 image stores the
clamped anchor `(10, 0)` — the row coordinate equals the image extent. -/
theorem anchor_insert_clamped_witness :
    ¬(({ baseState with anchors := [(3, 3)], prev_n_anchor_points := 1 } : WState).anchors ≠ []
        ∧ roundPt (clipPt 10 10 (12, -1)) = roundPt (3, 3))
    ∧ (anchorAdd { baseState with anchors := [(3, 3)], prev_n_anchor_points := 1 }
        (12, -1)).1.anchors
      = ({ baseState with anchors := [(3, 3)], prev_n_anchor_points := 1 }
          : WState).anchors ++ [clipPt 10 10 (12, -1)]
    ∧ clipPt 10 10 (12, -1) = (10, 0) := by
  have h := anchor_insert_clamped
    { baseState with anchors := [(3, 3)], prev_n_anchor_points := 1 } (12, -1)
    rfl (by norm_num)
    (by
      intro hcon
      have := hcon.2
      norm_num [roundPt, npround, clipPt, clipQ, Int.fract, baseState] at this)
  refine ⟨?_, ?_, ?_⟩
  · intro hcon
    have := hcon.2
    norm_num [roundPt, npround, clipPt, clipQ, Int.fract] at this
  · have h2 := h.2.1
    simpa [baseState] using h2
  · norm_num [clipPt, clipQ]

/-! ### Claim C4 -/

/-- C4: after every successful anchor commit — a normal append, a
shift/prepend, or a right-click removal that leaves the anchor sequence
non-empty — the point triangle's end row equals the first stored anchor
and its start row equals the last stored anchor. -/
theorem triangle_tracks_anchor_ends (st : WState) (p : Pt)
    (hrm : st.remove_last_anchor = false)
    (hprev : st.prev_n_anchor_points ≤ st.anchors.length + 1)
    (hdup : ¬(st.anchors ≠ [] ∧ roundPt (clipPt st.imgH st.imgW p)
                = roundPt (st.anchors.getLastD (0, 0)))) :
    ((anchorAdd st p).1.triangle.e = (anchorAdd st p).1.anchors.headD (0, 0)
     ∧ (anchorAdd st p).1.triangle.s = (anchorAdd st p).1.anchors.getLastD (0, 0)
     ∧ (anchorAdd st p).1.anchors ≠ [])
    ∧ (∀ st₂ st₂' : WState, st₂.add_mode = true →
        st₂.last_segment_length ≠ none →
        onRightClick st₂ 2 = some st₂' →
        st₂'.triangle.e = st₂'.anchors.headD (0, 0)
        ∧ st₂'.triangle.s = st₂'.anchors.getLastD (0, 0)
        ∧ st₂'.anchors ≠ []) := by
  obtain ⟨-, h2, h3, h4, -⟩ := anchorAdd_commit_fields st p hrm hprev hdup
  refine ⟨⟨h2, h3, h4⟩, ?_⟩
  intro st₂ st₂' hmode hL h
  unfold onRightClick at h
  rw [if_pos ⟨rfl, hmode⟩] at h
  rcases hLs : st₂.last_segment_length with - | L
  · exact absurd hLs hL
  · simp only [hLs] at h
    by_cases hp : (if st₂.last_added_with_shift = some true
        then (st₂.anchors.drop 1, st₂.output.drop L)
        else (st₂.anchors.dropLast, pySliceNeg st₂.output L)).1 = []
    · rw [if_pos hp] at h
      cases h
    · rw [if_neg hp] at h
      cases h
      exact ⟨rfl, rfl, hp⟩

/-- Witness for C4: committing the anchor `(7, 2)` after `(3, 3)` makes
the triangle's end row the first anchor and its start row the new last
anchor; removing it again by right click restores the property. -/
theorem triangle_tracks_anchor_ends_witness :
    ((anchorAdd { baseState with anchors := [(3, 3)], prev_n_anchor_points := 1 }
        (7, 2)).1.triangle.e
      = (anchorAdd { baseState with anchors := [(3, 3)], prev_n_anchor_points := 1 }
        (7, 2)).1.anchors.headD (0, 0))
    ∧ ((anchorAdd { baseState with anchors := [(3, 3)], prev_n_anchor_points := 1 }
        (7, 2)).1.triangle.s
      = (anchorAdd { baseState with anchors := [(3, 3)], prev_n_anchor_points := 1 }
        (7, 2)).1.anchors.getLastD (0, 0)) := by
  have h := triangle_tracks_anchor_ends
    { baseState with anchors := [(3, 3)], prev_n_anchor_points := 1 } (7, 2)
    rfl (by norm_num)
    (by
      intro hcon
      have := hcon.2
      norm_num [roundPt, npround, clipPt, clipQ, Int.fract, baseState] at this)
  exact ⟨h.1.1, h.1.2.1⟩

/-! ### Claim C2 -/

/-- C2: when a segment length `L` is remembered from the most recent
anchor commit, a right click removes exactly `L` points from the output
contour — from the front if the commit was made with shift, else from the
back — and removes the corresponding anchor from the matching end of the
anchor sequence, forgetting the length; when no segment length is
remembered, the right click leaves the output contour (and the anchor
sequence) untouched. -/
theorem right_click_pop (st : WState) (L : ℕ)
    (hmode : st.add_mode = true)
    (hL : st.last_segment_length = some L)
    (hL1 : 1 ≤ L)
    (hLout : L ≤ st.output.length)
    (hne : (if st.last_added_with_shift = some true then st.anchors.drop 1
            else st.anchors.dropLast) ≠ []) :
    (∃ st' : WState, onRightClick st 2 = some st'
      ∧ st'.anchors = (if st.last_added_with_shift = some true then st.anchors.drop 1
                       else st.anchors.dropLast)
      ∧ st'.output = (if st.last_added_with_shift = some true then st.output.drop L
                      else st.output.take (st.output.length - L))
      ∧ st'.output.length = st.output.length - L
      ∧ st'.last_segment_length = none)
    ∧ (∀ st₂ : WState, st₂.add_mode = true → st₂.last_segment_length = none →
        onRightClick st₂ 2 = some { st₂ with remove_last_anchor := true }) := by
  constructor
  · unfold onRightClick
    rw [if_pos ⟨rfl, hmode⟩]
    simp only [hL]
    by_cases hsh : st.last_added_with_shift = some true
    · rw [if_pos hsh] at hne ⊢
      simp only [hsh, if_true]
      rw [if_neg hne]
      exact ⟨_, rfl, by simp [hsh], by simp [hsh], by simp [hsh], rfl⟩
    · rw [if_neg hsh] at hne
      simp only [hsh, if_false]
      rw [if_neg hne]
      refine ⟨_, rfl, by simp [hsh], ?_, ?_, rfl⟩
      · simp only [hsh, if_false]
        unfold pySliceNeg
        rw [if_neg (by omega)]
      · unfold pySliceNeg
        rw [if_neg (by omega)]
        simp only [List.length_take]
        omega
  · intro st₂ hmode₂ hnone
    unfold onRightClick
    rw [if_pos ⟨rfl, hmode₂⟩]
    simp only [hnone]

/-- Witness for C2: with output contour `[(0,0), (1,1), (2,2)]`, anchors
`[(5,5), (0,0)]` and a remembered non-shift segment length of 2, a right
click drops the last two output points and the last anchor. -/
theorem right_click_pop_witness :
    rightClickState.last_segment_length = some 2
    ∧ 2 ≤ rightClickState.output.length
    ∧ (∃ st' : WState, onRightClick rightClickState 2 = some st'
        ∧ st'.anchors = [(5, 5)]
        ∧ st'.output.length = 1
        ∧ st'.last_segment_length = none) := by
  have h := right_click_pop rightClickState 2
    rfl rfl (by norm_num) (by norm_num [rightClickState, baseState])
    (by norm_num [rightClickState, baseState])
  obtain ⟨⟨st', h1, h2, h3, h4, h5⟩, -⟩ := h
  refine ⟨rfl, by norm_num [rightClickState, baseState], st', h1, ?_, ?_, h5⟩
  · rw [h2]
    norm_num [rightClickState, baseState]
  · rw [h4]
    norm_num [rightClickState, baseState]

/-! ### Smoothing lemmas and claims C8 (corrected) and C10 -/

theorem irfftPad_nil (n j : ℕ) : irfftPad [] n j = 0 := by
  simp [irfftPad]

theorem irfftSpec_nil (n k : ℕ) : irfftSpec [] n k = 0 := by
  simp [irfftSpec, irfftPad_nil]

/-- The inverse real FFT of an empty spectrum (everything zero-padded) is
identically zero, at every requested output length. -/
theorem irfftR_nil (n : ℕ) : irfftR [] n = List.replicate n 0 := by
  unfold irfftR
  simp only [irfftSpec_nil, zero_mul, Finset.sum_const_zero, mul_zero, Complex.zero_re]
  rw [List.map_const', List.length_range]

theorem irfftR_length (v : List ℂ) (n : ℕ) : (irfftR v n).length = n := by
  simp [irfftR]

theorem zipWith_replicate_pair (f : ℝ → ℝ → ℝ × ℝ) (n : ℕ) (a b : ℝ) :
    List.zipWith f (List.replicate n a) (List.replicate n b)
      = List.replicate n (f a b) := by
  induction n with
  | zero => rfl
  | succ k ih => simp [List.replicate_succ, ih]

/-- Smoothing with coefficient 0 keeps only the (zeroed) empty spectrum:
every output point is the centroid of the input contour. -/
theorem smoothFourier_zero (pts : List (ℝ × ℝ)) :
    smoothFourier 0 pts = List.replicate pts.length (centroid pts) := by
  unfold smoothFourier
  simp only [List.take_zero, irfftR_nil]
  rw [zipWith_replicate_pair]
  simp

theorem centroid_replicate (n : ℕ) (c : ℝ × ℝ) (hn : n ≠ 0) :
    centroid (List.replicate n c) = c := by
  unfold centroid
  have hcast : (n : ℝ) ≠ 0 := Nat.cast_ne_zero.mpr hn
  simp [List.map_replicate, List.sum_replicate, nsmul_eq_mul, mul_div_assoc,
    mul_div_cancel_left₀ _ hcast]

/-- C8 counterexample: smoothing the two-point contour `[(0,0), (2,0)]`
with coefficient 0 does not return it unchanged — it returns the centroid
`(1, 0)` twice. -/
theorem smooth_zero_not_identity_counterexample :
    smoothFourier 0 [((0 : ℝ), (0 : ℝ)), (2, 0)] ≠ [((0 : ℝ), (0 : ℝ)), (2, 0)]
    ∧ smoothFourier 0 [((0 : ℝ), (0 : ℝ)), (2, 0)] = [((1 : ℝ), (0 : ℝ)), (1, 0)] := by
  have h := smoothFourier_zero [((0 : ℝ), (0 : ℝ)), (2, 0)]
  have hc : centroid [((0 : ℝ), (0 : ℝ)), (2, 0)] = (1, 0) := by
    unfold centroid
    norm_num
  rw [hc] at h
  constructor
  · rw [h]
    intro hcon
    have h2 := congrArg (fun l : List (ℝ × ℝ) => l.headD (0, 0)) hcon
    simp [List.replicate] at h2
  · rw [h]
    rfl

/-- C8 as amended: for every non-empty contour, smoothing with
coefficient 0 replaces every point by the contour centroid (rather than
returning the contour unchanged); this operation is idempotent in the
sense `smooth(smooth(x, 0), 0) = smooth(x, 0)`. -/
theorem smooth_zero_constant_idempotent (pts : List (ℝ × ℝ)) (hne : pts ≠ []) :
    smoothFourier 0 pts = List.replicate pts.length (centroid pts)
    ∧ smoothFourier 0 (smoothFourier 0 pts) = smoothFourier 0 pts := by
  have h0 := smoothFourier_zero pts
  refine ⟨h0, ?_⟩
  rw [h0, smoothFourier_zero]
  have hn : pts.length ≠ 0 := by simpa [List.length_eq_zero] using hne
  rw [List.length_replicate, centroid_replicate _ _ hn]

/-- Witness for the amended C8 at the concrete contour `[(0,0), (2,0)]`. -/
theorem smooth_zero_constant_idempotent_witness :
    ([((0 : ℝ), (0 : ℝ)), (2, 0)] ≠ ([] : List (ℝ × ℝ)))
    ∧ smoothFourier 0 [((0 : ℝ), (0 : ℝ)), (2, 0)]
        = List.replicate ([((0 : ℝ), (0 : ℝ)), (2, 0)] : List (ℝ × ℝ)).length
            (centroid [((0 : ℝ), (0 : ℝ)), (2, 0)])
    ∧ smoothFourier 0 (smoothFourier 0 [((0 : ℝ), (0 : ℝ)), (2, 0)])
        = smoothFourier 0 [((0 : ℝ), (0 : ℝ)), (2, 0)] :=
  ⟨by simp,
    (smooth_zero_constant_idempotent [((0 : ℝ), (0 : ℝ)), (2, 0)] (by simp)).1,
    (smooth_zero_constant_idempotent [((0 : ℝ), (0 : ℝ)), (2, 0)] (by simp)).2⟩

/-- C10: for every non-empty contour and every smoothing coefficient of
at least 1, the Fourier smoothing returns exactly as many points as it
was given (the inverse transform is evaluated at the original point
count). -/
theorem smooth_preserves_length (c : ℕ) (pts : List (ℝ × ℝ))
    (_hc : 1 ≤ c) (_hne : pts ≠ []) :
    (smoothFourier c pts).length = pts.length := by
  unfold smoothFourier
  simp [irfftR_length]

/-- Witness for C10 at coefficient 1 and the contour `[(0,0), (2,0)]`. -/
theorem smooth_preserves_length_witness :
    1 ≤ 1
    ∧ ([((0 : ℝ), (0 : ℝ)), (2, 0)] ≠ ([] : List (ℝ × ℝ)))
    ∧ (smoothFourier 1 [((0 : ℝ), (0 : ℝ)), (2, 0)]).length
        = ([((0 : ℝ), (0 : ℝ)), (2, 0)] : List (ℝ × ℝ)).length :=
  ⟨le_refl 1, by simp,
    smooth_preserves_length 1 [((0 : ℝ), (0 : ℝ)), (2, 0)] (le_refl 1) (by simp)⟩

end NDAnnotator
